import Mathlib

/-!
Verification of the HPL condition-and-strategy compiler
(`haros/hpl/hypothesis_strategies.py` and `haros/hpl/test_generator.py`).

The Python sources are shallowly embedded: classes become structures or
inductive variants, dictionaries become association lists (Python dict
assignment replaces in place; lookup is by key), string formatting becomes
explicit concatenation, and code that can raise returns `Except` or an
explicit error component.  Types defined in `ros_types.py` / the HPL
front-end AST (not part of the analysed sources) are modelled from the
specification where noted.
-/

set_option synthInstance.maxHeartbeats 1000000

set_option maxHeartbeats 1000000

/-! ### Generic helpers: Python-style strings, decimal rendering, dicts -/

/-- Python `sep.join(parts)`. -/
def joinSep (sep : String) : List String → String
  | [] => ""
  | [s] => s
  | s :: rest => s ++ sep ++ joinSep sep rest

/-- Little-endian decimal digits of `n` (empty for `0`); fuel-based so that
the kernel can evaluate it. -/
def decDigitsAux : Nat → Nat → List Nat
  | 0, _ => []
  | _ + 1, 0 => []
  | fuel + 1, n + 1 => ((n + 1) % 10) :: decDigitsAux fuel ((n + 1) / 10)

/-- Little-endian decimal digits of `n`. -/
def decDigits (n : Nat) : List Nat := decDigitsAux n n

/-- Inverse of `decDigits`: rebuild the number from little-endian digits. -/
def unDigits : List Nat → Nat
  | [] => 0
  | d :: ds => d + 10 * unDigits ds

/-- The character for a decimal digit. -/
def digitChar (d : Nat) : Char := Char.ofNat (48 + d)

/-- Python `str(n)` for a natural number: decimal notation. -/
def decRepr (n : Nat) : String :=
  if n = 0 then "0" else String.mk ((decDigits n).reverse.map digitChar)

/-- Python `str(i)` for an integer (HPL literals in the analysed conditions
are plain machine integers, rendered in decimal with a leading minus sign
when negative). -/
def intRepr (i : Int) : String :=
  if i < 0 then "-" ++ decRepr i.natAbs else decRepr i.natAbs

/-- Python `s.replace("/", "_")` (the only replacement the sources perform,
a single-character substitution). -/
def slashToUnderscore (s : String) : String :=
  String.mk (s.data.map (fun c => if c = '/' then '_' else c))

/-- Python `"/" in s`. -/
def hasSlash (s : String) : Bool := s.data.any (fun c => c = '/')

/-- Python dict lookup `d.get(k)` over an insertion-ordered association
list. -/
def alGet {α : Type} (l : List (String × α)) (k : String) : Option α :=
  match l with
  | [] => none
  | (k₂, v) :: rest => if k₂ = k then some v else alGet rest k

/-- Python dict assignment `d[k] = v`: replace the entry in place if the key
exists, otherwise append, preserving insertion order. -/
def alSet {α : Type} (l : List (String × α)) (k : String) (v : α) :
    List (String × α) :=
  match l with
  | [] => [(k, v)]
  | (k₂, w) :: rest =>
      if k₂ = k then (k₂, v) :: rest else (k₂, w) :: alSet rest k v

/-! ### `ros_types` model (types imported by `hypothesis_strategies.py`) -/

/-- Modelled from the spec: `TypeToken` / `ArrayTypeToken` come from
`ros_types.py`, which is not among the analysed sources.  The spec (§3)
describes one field type as a primitive or message name, an array flag, and
an optional fixed length for arrays.  `ros_type`, `is_array` and `length`
are the attributes `hypothesis_strategies.py` reads. -/
inductive TypeToken
  | scalar (ros_type : String)
  | array (ros_type : String) (length : Option Nat)
deriving DecidableEq

/-- The `ros_type` attribute of a type token. -/
def TypeToken.ros_type : TypeToken → String
  | .scalar t => t
  | .array t _ => t

/-- The `is_array` attribute of a type token. -/
def TypeToken.is_array : TypeToken → Bool
  | .scalar _ => false
  | .array _ _ => true

/-- The `length` attribute of a type token (`None` for non-arrays and
unbounded arrays). -/
def TypeToken.length : TypeToken → Option Nat
  | .scalar _ => none
  | .array _ l => l

/-! ### `hypothesis_strategies.py`: strategies and modifiers -/

/-- The helper strategies assignable to one message field: `Reuse`
(a by-name reference, kept as the referenced strategy name), `Arrays`
(element strategy plus optional fixed length) and `ByteArrays` (optional
fixed length), exactly the values `StrategyMap._default` can produce. -/
inductive SubStrategy
  | reuse (strategy_name : String)
  | arrays (base_strategy : SubStrategy) (length : Option Nat)
  | byteArrays (length : Option Nat)
deriving DecidableEq

/-- `Reuse.to_python`: a zero-argument invocation of the referenced name
(the `module` parameter is unused in the source). -/
def Reuse.to_python (strategy_name : String) : String := strategy_name ++ "()"

/-- `to_python` of `Reuse` / `Arrays` / `ByteArrays`.  `Arrays` without a
length renders a size-bounded list strategy (`min_size=0, max_size=256`,
with the inner call rendered by `self.base_strategy.to_python()` using the
default module); with a length it renders a tuple of exactly `length`
copies.  `ByteArrays` renders a binary strategy capped at 256 or at the
fixed length. -/
def SubStrategy.to_python (module : String) : SubStrategy → String
  | .reuse n => Reuse.to_python n
  | .arrays base length =>
      match length with
      | none =>
          module ++ ".lists(elements=" ++ base.to_python "strategies"
            ++ ", min_size=0, max_size=256)"
      | some n =>
          module ++ ".tuples(*[" ++ base.to_python module
            ++ " for i in xrange(" ++ decRepr n ++ ")])"
  | .byteArrays length =>
      let n := match length with | none => 256 | some k => k
      module ++ ".binary(min_size=0, max_size=" ++ decRepr n ++ ")"

/-- `Reuse.from_ros_type`: message names (containing a slash) refer to the
message default strategy (`name.replace("/", "_")`), the bare `Header`
alias refers to `std_msgs_Header`, and anything else to `"ros_" + name`.
Returns the `strategy_name` carried by the resulting `Reuse`. -/
def Reuse.from_ros_type (ros_type : String) : String :=
  if hasSlash ros_type then slashToUnderscore ros_type
  else if ros_type = "Header" then "std_msgs_Header"
  else "ros_" ++ ros_type

/-- Field modifiers of `hypothesis_strategies.py`. -/
inductive FieldModifier
  | fixedValue (value : String)
  | strategyMod (strategy : SubStrategy)
  | exclusion (value : String)
  | fixedIndex (index : Nat) (modifier : FieldModifier)
  | randomIndex (modifier : FieldModifier)
deriving DecidableEq

/-- `FieldStrategy`: one field name, its base strategy and the ordered
modifier list. -/
structure FieldStrategy where
  field_name : String
  strategy : Option SubStrategy
  modifiers : List FieldModifier
deriving DecidableEq

/-- `MsgStrategy`: a composite strategy for one message type.  `name_` is
the optional explicit name passed to `__init__` (custom variants);
defaults leave it `none`. -/
structure MsgStrategy where
  msg_type : String
  fields : List (String × FieldStrategy)
  name_ : Option String
deriving DecidableEq

/-- `MsgStrategy.name`: the explicit name if one was given, otherwise the
message type with slashes replaced by underscores. -/
def MsgStrategy.name (s : MsgStrategy) : String :=
  match s.name_ with
  | some n => n
  | none => slashToUnderscore s.msg_type

/-- The top-level strategies stored in `StrategyMap.defaults`: the built-in
singleton strategies, the per-width integer and float strategies, and
message composites.  This is the closed set of `TopLevelStrategy`
subclasses of the source file. -/
inductive TopLevelStrategy
  | rosBool
  | rosInt (ros_type : String)
  | rosFloat (ros_type : String)
  | rosString
  | rosTime
  | rosDuration
  | header
  | msg (s : MsgStrategy)
deriving DecidableEq

/-- `TopLevelStrategy.name`: `RosBuiltinStrategy.name` is
`"ros_" + ros_type`, overridden to `std_msgs_Header` for the header
strategy; message strategies use `MsgStrategy.name`. -/
def TopLevelStrategy.name : TopLevelStrategy → String
  | .rosBool => "ros_bool"
  | .rosInt t => "ros_" ++ t
  | .rosFloat t => "ros_" ++ t
  | .rosString => "ros_string"
  | .rosTime => "ros_time"
  | .rosDuration => "ros_duration"
  | .header => "std_msgs_Header"
  | .msg s => s.name

/-- `RosIntStrategy.TYPES`: the natural `(min, max)` bounds per integer
type name.  Modelled from the spec for the numeric constants themselves
(`ros_types.py`, which defines `INT8_MIN_VALUE` etc., is not among the
analysed sources; the spec fixes "every integer width (signed/unsigned,
8/16/32/64-bit) ... each with a fixed natural numeric range", i.e. the
usual two's-complement bounds). -/
def RosIntStrategy.TYPES : List (String × Int × Int) :=
  [ ("char", 0, 255),
    ("uint8", 0, 255),
    ("byte", -128, 127),
    ("int8", -128, 127),
    ("uint16", 0, 65535),
    ("int16", -32768, 32767),
    ("uint32", 0, 4294967295),
    ("int32", -2147483648, 2147483647),
    ("uint64", 0, 18446744073709551615),
    ("int64", -9223372036854775808, 9223372036854775807) ]

/-- `RosFloatStrategy.TYPES`: the float type names (the natural bounds are
the extreme finite values of each width; only the names matter for the
catalog model). -/
def RosFloatStrategy.TYPES : List String := ["float32", "float64"]

/-- The guard of the rendered numeric strategy body (`RosIntStrategy.TMP`
and `RosFloatStrategy.TMP` share it verbatim): with natural bounds
`(nmin, nmax)` substituted into the template, the rendered function raises
`ValueError` exactly when
`min_value <= nmin or min_value >= nmax or max_value <= nmin or
 max_value >= nmax or min_value > max_value`. -/
def renderedBoundsCheckRaises (nmin nmax cmin cmax : Int) : Bool :=
  decide (cmin ≤ nmin) || decide (cmin ≥ nmax) || decide (cmax ≤ nmin)
    || decide (cmax ≥ nmax) || decide (cmin > cmax)

/-- The bounds-error predicate as the claim states it: caller bounds are
erroneous exactly when `callerMin > callerMax` or `[callerMin, callerMax]`
does not overlap `[naturalMin, naturalMax]`. -/
def claimedBoundsError (nmin nmax cmin cmax : Int) : Bool :=
  decide (cmin > cmax) || decide (cmax < nmin) || decide (cmin > nmax)

/-- `StrategyMap`: `defaults` maps a ROS type name to its top-level
strategy, `custom` maps a message type to its ordered list of custom
variants. -/
structure StrategyMap where
  defaults : List (String × TopLevelStrategy)
  custom : List (String × List MsgStrategy)
deriving DecidableEq

/-- `StrategyMap._make_builtins` followed by `__init__`: the initial map
holds the built-in singletons, one integer strategy per
`RosIntStrategy.TYPES` entry and one float strategy per
`RosFloatStrategy.TYPES` entry, and no custom strategies. -/
def StrategyMap.init : StrategyMap :=
  { defaults :=
      [ ("bool", .rosBool),
        ("string", .rosString),
        ("time", .rosTime),
        ("duration", .rosDuration),
        ("std_msgs/Header", .header) ]
      ++ RosIntStrategy.TYPES.map (fun p => (p.1, .rosInt p.1))
      ++ RosFloatStrategy.TYPES.map (fun t => (t, .rosFloat t)),
    custom := [] }

/-- `StrategyMap.make_custom`: fetch (or create) the custom list for
`msg_type`, mint a `MsgStrategy` named
`msg_type.replace("/", "_") + "_v" + str(len(custom) + 1)`, append it and
return it. -/
def StrategyMap.make_custom (m : StrategyMap) (msg_type : String) :
    StrategyMap × MsgStrategy :=
  let custom := (alGet m.custom msg_type).getD []
  let nm := slashToUnderscore msg_type ++ "_v" ++ decRepr (custom.length + 1)
  let strategy : MsgStrategy := ⟨msg_type, [], some nm⟩
  ({ m with custom := alSet m.custom msg_type (custom ++ [strategy]) },
   strategy)

/-- `StrategyMap._default`: byte (`uint8`) arrays get a `ByteArrays`
strategy; every other type resolves to a `Reuse` reference, wrapped in an
`Arrays` strategy when the token is an array. -/
def StrategyMap._default (type_token : TypeToken) : SubStrategy :=
  if type_token.ros_type = "uint8" && type_token.is_array then
    .byteArrays type_token.length
  else
    let strategy : SubStrategy := .reuse (Reuse.from_ros_type type_token.ros_type)
    if type_token.is_array then .arrays strategy type_token.length
    else strategy

/-- The values of the `msg_data` argument of `make_defaults`: the argument
itself is either a dict or some other Python value, and each of its values
is either a field dict or some other Python value. -/
inductive FieldDict
  | notADict
  | entries (l : List (String × TypeToken))
deriving DecidableEq

/-- The `msg_data` argument of `make_defaults`. -/
inductive MsgDataArg
  | notADict
  | dict (l : List (String × FieldDict))
deriving DecidableEq

/-- The validation test of `make_defaults`:
`isinstance(msg_data, dict) and all(isinstance(v, dict) for v in
msg_data.itervalues())`. -/
def validMsgData : MsgDataArg → Bool
  | .notADict => false
  | .dict l => l.all (fun p => match p.2 with | .notADict => false | .entries _ => true)

/-- `StrategyMap.make_defaults`: after validation, build one default
`MsgStrategy` per declared message type, each field resolved through
`_default`, and store it under the message type.  Returns the error message
of the raised `TypeError` (if any) together with the resulting map; the
raise happens before the first mutation, so on error the map is returned
untouched. -/
def StrategyMap.make_defaults (m : StrategyMap) (msg_data : MsgDataArg) :
    Option String × StrategyMap :=
  if validMsgData msg_data then
    match msg_data with
    | .notADict => (some "expected dict: \x7bmsg -> \x7bfield -> type\x7d\x7d", m)
    | .dict l =>
        (none,
         l.foldl
           (fun acc p =>
             match p.2 with
             | .notADict => acc
             | .entries data =>
                 let strategy : MsgStrategy :=
                   ⟨p.1,
                    data.map (fun q =>
                      (q.1, ⟨q.1, some (StrategyMap._default q.2), []⟩)),
                    none⟩
                 { acc with defaults := alSet acc.defaults p.1 (.msg strategy) })
           m)
  else
    (some "expected dict: \x7bmsg -> \x7bfield -> type\x7d\x7d", m)

/-- `RandomIndexModifier.IDX` rendered: the index-drawing line
`i = draw(module.integers(min_value=0, max_value=len(var.field)))`. -/
def RandomIndexModifier.IDX (indent : Nat) (module var field : String) :
    String :=
  String.mk (List.replicate indent ' ') ++ "i = draw(" ++ module
    ++ ".integers(min_value=0, max_value=len(" ++ var ++ "." ++ field ++ ")))"

/-- `FixedValueModifier.to_python`: `var.field = value`. -/
def FixedValueModifier.to_python (value field_name var : String)
    (indent : Nat) : String :=
  String.mk (List.replicate indent ' ') ++ var ++ "." ++ field_name ++ " = "
    ++ value

/-- `RandomIndexModifier.to_python` with a `FixedValueModifier` inside:
the index line followed by the inner modifier applied at `field[i]`. -/
def RandomIndexModifier.to_python (value field_name var module : String)
    (indent : Nat) : String :=
  RandomIndexModifier.IDX indent module var field_name ++ "\n"
    ++ FixedValueModifier.to_python value (field_name ++ "[i]") var indent

/-- The set of indices the rendered index line can draw when the array has
length `n`: `integers(min_value=0, max_value=len(...))` draws inclusively
from `0` to `n`. -/
def randomIndexDrawRange (n : Nat) : List Nat := List.range (n + 1)

/-- The valid indices of an array of length `n`: `0` to `n - 1`. -/
def validIndices (n : Nat) : List Nat := List.range n

/-! ### `test_generator.py`: the HPL condition AST (front-end objects) -/

/-- The index annotation of one field-access segment: a concrete integer
index or a quantifier keyword (`"any"` / `"all"`).  Modelled from the spec:
the HPL front-end AST is not among the analysed sources; §3 describes a
segment as either concretely indexed or annotated as a quantified loop. -/
inductive Idx
  | num (i : Int)
  | quant (q : String)
deriving DecidableEq

/-- One field-access segment as consumed by `test_generator.py`: the
attributes read there are `name`, `token` (the rendered segment text,
including a concrete index when present), `is_loop`, `index` and (by the
strategy synthesizer) the enclosing `msg_type`.  Modelled from the spec:
the defining class lives in the HPL front end, outside the analysed
sources. -/
structure HplField where
  name : String
  token : String
  is_loop : Bool
  index : Option Idx
  msg_type : String
deriving DecidableEq

/-- A field-access path: a root variable name and its segments.  Modelled
from the spec (§3): produced by the HPL front end, consumed read-only. -/
structure FieldExpr where
  varName : String
  fields : List HplField
deriving DecidableEq

/-- Helper for `get_loops`: emit, outermost first, one chunk per quantified
segment, each chunk holding the segments since the previous quantified
segment up to and including the quantified one. -/
def getLoopsAux (acc : List HplField) : List HplField → List (List HplField)
  | [] => []
  | f :: fs =>
      if f.is_loop then (acc ++ [f]) :: getLoopsAux [] fs
      else getLoopsAux (acc ++ [f]) fs

/-- Modelled from the spec: `expr.get_loops()` (HPL front end, outside the
analysed sources) yields one entry per quantified loop segment of the
path, outermost first — §4.3 records one `Loop` frame per quantified
segment, outer to inner. -/
def FieldExpr.get_loops (e : FieldExpr) : List (List HplField) :=
  getLoopsAux [] e.fields

/-- Helper for `last_name`: the segments after the last quantified one. -/
def tailAfterLoopsAux (acc : List HplField) : List HplField → List HplField
  | [] => acc
  | f :: fs =>
      if f.is_loop then tailAfterLoopsAux [] fs
      else tailAfterLoopsAux (acc ++ [f]) fs

/-- Modelled from the spec: `expr.last_name` (HPL front end, outside the
analysed sources) is the dotted name of the path below the innermost
quantified segment — the part of the reference that remains to be accessed
on the loop alias — and is empty (falsy) when the path ends at a
quantified segment. -/
def FieldExpr.last_name (e : FieldExpr) : Option String :=
  let t := tailAfterLoopsAux [] e.fields
  match t with
  | [] => none
  | _ => some (joinSep "." (t.map HplField.name))

/-- An HPL literal; the conditions the compiler receives carry integer or
boolean literals (modelled from the spec, §3).  `pyRepr` is Python
`repr(value)`. -/
inductive HplLiteral
  | int (i : Int)
  | bool (b : Bool)
deriving DecidableEq

/-- Python `repr` of a literal value. -/
def HplLiteral.pyRepr : HplLiteral → String
  | .int i => intRepr i
  | .bool b => if b then "True" else "False"

/-! ### `test_generator.py`: `ConditionTransformer` -/

/-- `ConditionTransformer.Reference`: the resolved left (or right) field
expression together with the root text it is accessed from. -/
structure Reference where
  expr : FieldExpr
  root : String
deriving DecidableEq

/-- `ConditionTransformer.Loop`: one recorded loop frame (`fields`, the
root it iterates from — `variable` in the source — and the synthetic
alias). -/
structure Loop where
  fields : List HplField
  var : String
  aliasName : String
deriving DecidableEq

/-- `Loop.name`: `variable + "." + ".".join(f.name if f.is_loop else
f.token for f in fields)`. -/
def Loop.name (l : Loop) : String :=
  l.var ++ "." ++ joinSep "."
    (l.fields.map (fun f => if f.is_loop then f.name else f.token))

/-- `Loop.operator`: the `index` of the last recorded field; the source
asserts it is neither `None` nor an integer, so a missing or numeric index
is an `AssertionError` (`none` here). -/
def Loop.operator (l : Loop) : Option String :=
  match l.fields.getLast? with
  | some f =>
      match f.index with
      | some (.quant q) => some q
      | _ => none
  | none => none

/-- The right-hand side of an equality or comparison condition. -/
inductive CondValue
  | lit (l : HplLiteral)
  | expr (e : FieldExpr)
deriving DecidableEq

/-- The value of an inclusion condition: a literal set (`HplSet`) or a
range with independently exclusive endpoints (`HplRange`).  Modelled from
the spec (§3): set members and range bounds are literals. -/
inductive InclValue
  | set (values : List HplLiteral)
  | range (lower_bound upper_bound : HplLiteral)
      (exclude_lower exclude_upper : Bool)
deriving DecidableEq

/-- The three condition kinds dispatched by
`ConditionTransformer._process` (`is_equality_test`,
`is_comparison_test`, `is_inclusion_test`), each with its operator. -/
inductive CondTest
  | equality (op : String) (value : CondValue)
  | comparison (op : String) (value : CondValue)
  | inclusion (op : String) (value : InclValue)
deriving DecidableEq

/-- One atomic HPL condition: a left field-access path and the test
applied to it. -/
structure Condition where
  field : FieldExpr
  test : CondTest
deriving DecidableEq

/-- A resolved right-hand operand as held in `self.right_operands`:
a literal, a resolved `Reference`, or a tuple of set members. -/
inductive RValue
  | lit (l : HplLiteral)
  | ref (r : Reference)
  | tup (values : List HplLiteral)
deriving DecidableEq

/-- `ConditionTransformer._python`: render a reference (root plus dotted
tail when the path does not end at a loop), a literal (`repr`), or a tuple
of literals. -/
def pythonOf : RValue → String
  | .ref r =>
      match r.expr.last_name with
      | some n => r.root ++ "." ++ n
      | none => r.root
  | .lit l => l.pyRepr
  | .tup vs => "(" ++ joinSep ", " (vs.map HplLiteral.pyRepr) ++ ")"

/-- `ConditionTransformer._field_expression`, threading the `_var` counter
and the `self.loops` accumulator: starting from
`root = self._var_prefix + expr.variable`, record one `Loop` per
`get_loops()` chunk, binding a fresh alias `x<n>` and chaining the root
through the aliases; return the `Reference`. -/
def fieldExpression (pfx : String) (st : Nat × List Loop) (e : FieldExpr) :
    (Nat × List Loop) × Reference :=
  let start : String × Nat × List Loop := (pfx ++ e.varName, st)
  let out := e.get_loops.foldl
    (fun (acc : String × Nat × List Loop) chunk =>
      let root := acc.1
      let v := acc.2.1
      let ls := acc.2.2
      let aliasName := "x" ++ decRepr v
      (aliasName, v + 1, ls ++ [⟨chunk, root, aliasName⟩]))
    start
  ((out.2.1, out.2.2), ⟨e, out.1⟩)

/-- `ConditionTransformer._process` and the `_*_test` helpers: resolve the
left field expression, then compute `self.right_operands` according to the
condition kind (equality maps `=` to `==`; inclusion against a range
produces two operands, `>`/`>=` on the lower bound and `<`/`<=` on the
upper bound).  Returns the final `(var counter, loops)`, the left
reference and the right operand list. -/
def processCond (pfx : String) (st₀ : Nat × List Loop) (c : Condition) :
    (Nat × List Loop) × Reference × List (String × RValue) :=
  let r₁ := fieldExpression pfx st₀ c.field
  let st := r₁.1
  let leftRef := r₁.2
  match c.test with
  | .equality op v =>
      let op₂ := if op = "=" then "==" else op
      match v with
      | .lit l => (st, leftRef, [(op₂, .lit l)])
      | .expr e =>
          let r₂ := fieldExpression pfx st e
          (r₂.1, leftRef, [(op₂, .ref r₂.2)])
  | .comparison op v =>
      match v with
      | .lit l => (st, leftRef, [(op, .lit l)])
      | .expr e =>
          let r₂ := fieldExpression pfx st e
          (r₂.1, leftRef, [(op, .ref r₂.2)])
  | .inclusion op v =>
      match v with
      | .set vs => (st, leftRef, [(op, .tup vs)])
      | .range lo hi exL exU =>
          (st, leftRef,
           [((if exL then ">" else ">="), .lit lo),
            ((if exU then "<" else "<="), .lit hi)])

/-- A single-hole format string, as used by `gen`: `expr = "{}"` starts
with an empty context and every `expr.format(...)` call splices new text
around the remaining hole. -/
structure Hole where
  pre : String
  post : String
deriving DecidableEq

/-- `expr.format(w)` where `w` itself carries one hole: the surrounding
text accumulates on both sides. -/
def Hole.fill (h w : Hole) : Hole := ⟨h.pre ++ w.pre, w.post ++ h.post⟩

/-- The final `expr.format(inner)` with a plain string: substitute the
hole. -/
def Hole.finalize (h : Hole) (s : String) : String := h.pre ++ s ++ h.post

/-- The aggregation wrapper `"{}({{}} for {} in {})".format(loop.operator,
loop.alias, loop.name)` — its text before and after the new hole.
Evaluating `loop.operator` can raise the source's assertion. -/
def loopWrapper (l : Loop) : Except String Hole :=
  match l.operator with
  | none => .error "AssertionError"
  | some op =>
      .ok ⟨op ++ "(", " for " ++ l.aliasName ++ " in " ++ l.name ++ ")"⟩

/-- The wrapping for-loop of `gen`, iterating left to right: on each
frame, evaluate the wrapper (which can raise the operator assertion) and
splice it into the current hole. -/
def wrapLoopsAux : List Loop → Hole → Except String Hole
  | [], h => .ok h
  | l :: ls, h =>
      match loopWrapper l with
      | .error e => .error e
      | .ok w => wrapLoopsAux ls (h.fill w)

/-- The wrapping for-loop of `gen`: starting from `expr = "{}"` (an empty
context around the hole), fold every recorded loop frame into the format
string. -/
def wrapLoopsFold (loops : List Loop) : Except String Hole :=
  wrapLoopsAux loops ⟨"", ""⟩

/-- The claim-side rendering of the recorded frames: one aggregation
expression per frame, by recursion, the head frame (the outermost path
segment) becoming the outermost aggregation; zero frames leave the base
predicate unwrapped. -/
def nestAgg : List Loop → String → Except String String
  | [], inner => .ok inner
  | l :: ls, inner =>
      match l.operator with
      | none => .error "AssertionError"
      | some op =>
          (nestAgg ls inner).map
            (fun s => op ++ "(" ++ s ++ " for " ++ l.aliasName ++ " in "
              ++ l.name ++ ")")

/-- The per-instance state of `ConditionTransformer` (`__init__`). -/
structure CT where
  loops : List Loop
  left_operand : Option Reference
  right_operands : List (String × RValue)
  var : Nat
  varPfx : String
deriving DecidableEq

/-- A freshly constructed `ConditionTransformer()`. -/
def CT.mkNew : CT := ⟨[], none, [], 0, "self._user_"⟩

/-- `ConditionTransformer._reset`: clear `loops`, `left_operand`,
`right_operands` and `_var`; `_var_prefix` is left as constructed. -/
def CT.reset (s : CT) : CT :=
  { s with loops := [], left_operand := none, right_operands := [], var := 0 }

/-- The base boolean text of `gen`: every right operand rendered as
`left op value`, joined by `" and "`. -/
def innerText (left : String) (rops : List (String × RValue)) : String :=
  joinSep " and " (rops.map (fun p => left ++ " " ++ p.1 ++ " " ++ pythonOf p.2))

/-- The body of `ConditionTransformer.gen` after `_reset`, run on the
(already reset) state: process the condition, wrap the format string with
every recorded loop, then substitute the base predicate and prepend
`assert `.  The `Loop.operator` assertion surfaces as an `Except.error`. -/
def CT.genRun (s : CT) (c : Condition) : CT × Except String String :=
  let r := processCond s.varPfx (s.var, s.loops) c
  let loops := r.1.2
  let leftRef := r.2.1
  let rops := r.2.2
  let s₂ : CT :=
    { s with loops := loops, left_operand := some leftRef,
             right_operands := rops, var := r.1.1 }
  (s₂,
   (wrapLoopsFold loops).map (fun h =>
     "assert " ++ h.finalize (innerText (pythonOf (.ref leftRef)) rops)))

/-- `ConditionTransformer.gen`: `_reset` first, then the body. -/
def CT.gen (s : CT) (c : Condition) : CT × Except String String :=
  CT.genRun s.reset c

/-! ### `test_generator.py`: `StrategyTransformer` -/

/-- Python exceptions surfaced by the strategy synthesizer model. -/
inductive PyError
  | attributeError (obj attr : String)
  | nameError (nm : String)
  | indexError
deriving DecidableEq

/-- The value held in `StrategyTransformer.strategies`: `__init__` stores a
`StrategyMap`, but `_reset` replaces it with a plain dict (`{}`). -/
inductive StrategiesSlot
  | smap (m : StrategyMap)
  | pyDict (entries : List (String × MsgStrategy))
deriving DecidableEq

/-- Attribute dispatch for `self.strategies.make_custom(...)`: defined on a
`StrategyMap`, an `AttributeError` on a plain dict. -/
def StrategiesSlot.make_custom (s : StrategiesSlot) (msg_type : String) :
    Except PyError (StrategiesSlot × MsgStrategy) :=
  match s with
  | .smap m =>
      let r := m.make_custom msg_type
      .ok (.smap r.1, r.2)
  | .pyDict _ => .error (.attributeError "dict" "make_custom")

/-- The `strategies` slot of `StrategyTransformer` (`__init__`); the other
attributes set there are irrelevant to the failure path. -/
structure STrans where
  strategies : StrategiesSlot
deriving DecidableEq

/-- A freshly constructed `StrategyTransformer()`: `self.strategies =
StrategyMap()`. -/
def STrans.mkNew : STrans := ⟨.smap StrategyMap.init⟩

/-- `StrategyTransformer._reset`: `self.strategies = {}` — a plain dict,
not a `StrategyMap`. -/
def STrans.reset (_ : STrans) : STrans := ⟨.pyDict []⟩

/-- The argument of `StrategyTransformer.gen`: `_process` treats it as a
message filter, calling `normalise()` and iterating `field_conditions`.
Modelled from the spec (§6, the front-end AST is external): normalisation
has already happened, so `normalise()` is the identity here. -/
structure MsgFilter where
  field_conditions : List Condition
deriving DecidableEq

/-- `StrategyTransformer.gen` / `_process` / `_process_left_field`: after
`_reset`, the loop over `field_conditions` leaves `condition` bound to the
last element (a `NameError` if there are none); `_process_left_field` then
reads `expr.fields[-1]` (an `IndexError` on an empty path) and immediately
calls `self.strategies.make_custom(...)` — an `AttributeError`, because
`_reset` replaced the `StrategyMap` with a plain dict.  Even past that
point, the next statement `FieldStrategy.make_default(...)` names a
classmethod that does not exist on `FieldStrategy`. -/
def STrans.gen (st : STrans) (msg_filter : MsgFilter) : Except PyError String :=
  let st₂ := st.reset
  match msg_filter.field_conditions.getLast? with
  | none => .error (.nameError "condition")
  | some condition =>
      match condition.field.fields.getLast? with
      | none => .error .indexError
      | some f =>
          match st₂.strategies.make_custom f.msg_type with
          | .error e => .error e
          | .ok _ => .error (.attributeError "FieldStrategy" "make_default")

/-! ### Claim-side definitions and bookkeeping -/

/-- The name minted for the `i`-th custom variant of a message type. -/
def vname (msg_type : String) (i : Nat) : String :=
  slashToUnderscore msg_type ++ "_v" ++ decRepr i

/-- Minting a sequence of custom strategies, in request order. -/
def mintAll (m : StrategyMap) : List String → StrategyMap
  | [] => m
  | t :: ts => mintAll (m.make_custom t).1 ts

/-- The custom list currently stored for a message type. -/
def customList (m : StrategyMap) (t : String) : List MsgStrategy :=
  (alGet m.custom t).getD []

/-- The names of a message type's custom variants, in creation order. -/
def customNames (m : StrategyMap) (t : String) : List String :=
  (customList m t).map MsgStrategy.name

/-- The bookkeeping invariant: every custom list reads
`[<t>_v1, ..., <t>_vk]`. -/
def NamesInv (m : StrategyMap) : Prop :=
  ∀ t, customNames m t
    = (List.range (customList m t).length).map (fun i => vname t (i + 1))

/-- The loop chunks contributed by the right-hand side of a condition: a
right-hand field expression records its own loop frames after the left
path's; literals, sets and ranges record none. -/
def rhsLoopChunks (c : Condition) : List (List HplField) :=
  match c.test with
  | .equality _ (.expr e) => e.get_loops
  | .comparison _ (.expr e) => e.get_loops
  | _ => []

/-! ### Concrete inputs used by the claim theorems -/

/-- The `level` field of `pkg/Msg` (schema of the concrete scenario in the
spec: `pkg/Msg` with a single `uint8` field `level`). -/
def levelField : HplField :=
  ⟨"level", "level", false, none, "pkg/Msg"⟩

/-- The condition `level = 5` over a message variable `msg`. -/
def levelCond : Condition :=
  ⟨⟨"msg", [levelField]⟩, .equality "=" (.lit (.int 5))⟩

/-- The message filter carrying the single condition `level = 5`. -/
def levelFilter : MsgFilter := ⟨[levelCond]⟩

/-- An existentially quantified array segment `a` (operator `any`). -/
def loopFieldA : HplField :=
  ⟨"a", "a", true, some (.quant "any"), "pkg/M"⟩

/-- A nested existentially quantified array segment `b` (operator `any`). -/
def loopFieldB : HplField :=
  ⟨"b", "b", true, some (.quant "any"), "pkg/M"⟩

/-- A condition with two nested existential loop segments:
`any a: any b: _ > 0`. -/
def twoLoopCond : Condition :=
  ⟨⟨"msg", [loopFieldA, loopFieldB]⟩, .comparison ">" (.lit (.int 0))⟩

/-- The range-inclusion condition of the spec's concrete test: `level` in
the range `(0, 10]` (exclusive lower, inclusive upper). -/
def rangeCond : Condition :=
  ⟨⟨"msg", [levelField]⟩, .inclusion "in" (.range (.int 0) (.int 10) true false)⟩

/-! ### Helper lemmas: decimal rendering -/

theorem unDigits_decDigitsAux :
    ∀ (fuel n : Nat), n ≤ fuel → unDigits (decDigitsAux fuel n) = n := by
  intro fuel
  induction fuel with
  | zero =>
      intro n hn
      interval_cases n
      simp [decDigitsAux, unDigits]
  | succ fuel ih =>
      intro n hn
      match n with
      | 0 => simp [decDigitsAux, unDigits]
      | m + 1 =>
          have hlt : (m + 1) / 10 < m + 1 := Nat.div_lt_self (by omega) (by omega)
          have hle : (m + 1) / 10 ≤ fuel := by omega
          simp only [decDigitsAux, unDigits, ih _ hle]
          omega

theorem unDigits_decDigits (n : Nat) : unDigits (decDigits n) = n :=
  unDigits_decDigitsAux n n (Nat.le_refl n)

theorem decDigits_injective : Function.Injective decDigits := by
  intro a b h
  have := congrArg unDigits h
  simpa [unDigits_decDigits] using this

theorem decDigitsAux_lt_ten :
    ∀ (fuel n : Nat), ∀ d ∈ decDigitsAux fuel n, d < 10 := by
  intro fuel
  induction fuel with
  | zero => intro n d hd; simp [decDigitsAux] at hd
  | succ fuel ih =>
      intro n d hd
      match n with
      | 0 => simp [decDigitsAux] at hd
      | m + 1 =>
          simp only [decDigitsAux, List.mem_cons] at hd
          rcases hd with h | h
          · subst h; exact Nat.mod_lt _ (by omega)
          · exact ih _ _ h

theorem decDigits_lt_ten (n : Nat) : ∀ d ∈ decDigits n, d < 10 :=
  decDigitsAux_lt_ten n n

theorem digitChar_inj_lt :
    ∀ a, a < 10 → ∀ b, b < 10 → digitChar a = digitChar b → a = b := by
  decide

theorem map_digitChar_inj :
    ∀ (l₁ l₂ : List Nat), (∀ d ∈ l₁, d < 10) → (∀ d ∈ l₂, d < 10) →
      l₁.map digitChar = l₂.map digitChar → l₁ = l₂ := by
  intro l₁
  induction l₁ with
  | nil => intro l₂ _ _ h; cases l₂ <;> simp_all
  | cons a l ih =>
      intro l₂ h₁ h₂ h
      cases l₂ with
      | nil => simp at h
      | cons b l₂ =>
          simp only [List.map_cons, List.cons.injEq] at h
          have ha : a < 10 := h₁ a (by simp)
          have hb : b < 10 := h₂ b (by simp)
          have hd := digitChar_inj_lt a ha b hb h.1
          have ht := ih l₂ (fun d hd₂ => h₁ d (by simp [hd₂]))
            (fun d hd₂ => h₂ d (by simp [hd₂])) h.2
          simp [hd, ht]

theorem decRepr_injective : Function.Injective decRepr := by
  intro a b h
  unfold decRepr at h
  by_cases ha : a = 0 <;> by_cases hb : b = 0
  · simp [ha, hb]
  · exfalso
    simp only [ha, if_pos rfl, if_neg hb] at h
    have hd := congrArg String.data h
    simp only [String.data] at hd
    have h0 : (decDigits b).reverse.map digitChar = ['0'] := by
      simpa using hd.symm
    have hrev : (decDigits b).reverse = [0] := by
      refine map_digitChar_inj _ [0] ?_ (by simp) ?_
      · intro d hdm
        exact decDigits_lt_ten b d (List.mem_reverse.mp hdm)
      · simpa [digitChar] using h0
    have : decDigits b = [0] := by
      have := congrArg List.reverse hrev
      simpa using this
    have := congrArg unDigits this
    rw [unDigits_decDigits] at this
    simp [unDigits] at this
    exact hb this
  · exfalso
    simp only [hb, if_pos rfl, if_neg ha] at h
    have hd := congrArg String.data h
    simp only [String.data] at hd
    have h0 : (decDigits a).reverse.map digitChar = ['0'] := by
      simpa using hd
    have hrev : (decDigits a).reverse = [0] := by
      refine map_digitChar_inj _ [0] ?_ (by simp) ?_
      · intro d hdm
        exact decDigits_lt_ten a d (List.mem_reverse.mp hdm)
      · simpa [digitChar] using h0
    have : decDigits a = [0] := by
      have := congrArg List.reverse hrev
      simpa using this
    have := congrArg unDigits this
    rw [unDigits_decDigits] at this
    simp [unDigits] at this
    exact ha this
  · simp only [if_neg ha, if_neg hb] at h
    have hd : (decDigits a).reverse.map digitChar
        = (decDigits b).reverse.map digitChar := by
      have := congrArg String.data h
      simpa [String.data] using this
    have hrev := map_digitChar_inj _ _
      (fun d hdm => decDigits_lt_ten a d (List.mem_reverse.mp hdm))
      (fun d hdm => decDigits_lt_ten b d (List.mem_reverse.mp hdm)) hd
    have : decDigits a = decDigits b := by
      have := congrArg List.reverse hrev
      simpa using this
    exact decDigits_injective this

theorem decDigits_ne_nil (n : Nat) (h : n ≠ 0) : decDigits n ≠ [] := by
  match n, h with
  | m + 1, _ => simp [decDigits, decDigitsAux]

theorem decRepr_length_pos (n : Nat) : 0 < (decRepr n).length := by
  unfold decRepr
  by_cases h : n = 0
  · simp only [if_pos h]
    decide
  · have hne := decDigits_ne_nil n h
    simp only [if_neg h]
    have : (String.mk ((decDigits n).reverse.map digitChar)).length
        = ((decDigits n).reverse.map digitChar).length := by
      simp [String.length]
    rw [this]
    simp only [List.length_map, List.length_reverse]
    exact List.length_pos.mpr hne

/-! ### Helper lemmas: association lists and custom-name bookkeeping -/

theorem alGet_alSet {α : Type} (l : List (String × α)) (k k₂ : String) (v : α) :
    alGet (alSet l k v) k₂ = if k = k₂ then some v else alGet l k₂ := by
  induction l with
  | nil =>
      by_cases h : k = k₂ <;> simp [alSet, alGet, h]
  | cons p rest ih =>
      obtain ⟨k₃, w⟩ := p
      by_cases h₃ : k₃ = k
      · subst h₃
        by_cases h : k₃ = k₂ <;> simp [alSet, alGet, h]
      · by_cases h : k₃ = k₂
        · subst h
          have : ¬ k = k₃ := fun hk => h₃ hk.symm
          simp [alSet, alGet, h₃, this]
        · simp [alSet, alGet, h₃, h, ih]

theorem vname_inj (t : String) {i j : Nat} (h : vname t i = vname t j) :
    i = j := by
  unfold vname at h
  have hd := congrArg String.data h
  simp only [String.data_append, List.append_assoc] at hd
  have h₂ : (decRepr i).data = (decRepr j).data := by
    have h₃ := List.append_cancel_left hd
    simpa using h₃
  exact decRepr_injective (String.ext h₂)

theorem vname_ne_default (t : String) (i : Nat) :
    vname t i ≠ slashToUnderscore t := by
  intro h
  have := congrArg String.length h
  simp only [vname, String.length_append] at this
  have h₂ := decRepr_length_pos i
  have h₃ : ("_v" : String).length = 2 := by decide
  omega

theorem make_custom_customList (m : StrategyMap) (t t₂ : String) :
    customList (m.make_custom t).1 t₂
      = if t = t₂ then customList m t ++ [(m.make_custom t).2]
        else customList m t₂ := by
  by_cases h : t = t₂ <;>
    simp [customList, StrategyMap.make_custom, alGet_alSet, h]

theorem make_custom_name (m : StrategyMap) (t : String) :
    ((m.make_custom t).2).name = vname t ((customList m t).length + 1) := by
  simp [StrategyMap.make_custom, MsgStrategy.name, vname, customList]

theorem make_custom_defaults (m : StrategyMap) (t : String) :
    ((m.make_custom t).1).defaults = m.defaults := by
  simp [StrategyMap.make_custom]

theorem namesInv_init : NamesInv StrategyMap.init := by
  intro t
  simp [customNames, customList, StrategyMap.init, alGet]

theorem namesInv_step (m : StrategyMap) (t : String) (h : NamesInv m) :
    NamesInv (m.make_custom t).1 := by
  intro t₂
  by_cases ht : t = t₂
  · subst ht
    have hc := make_custom_customList m t t
    rw [if_pos rfl] at hc
    simp only [customNames, hc, List.map_append, List.map_cons, List.map_nil,
      List.length_append, List.length_cons, List.length_nil]
    rw [make_custom_name]
    have hr : List.range ((customList m t).length + (0 + 1))
        = List.range (customList m t).length ++ [(customList m t).length] := by
      simpa using List.range_succ (customList m t).length
    rw [hr, List.map_append]
    have hh := h t
    simp only [customNames] at hh
    simp [hh]
  · have hc := make_custom_customList m t t₂
    rw [if_neg ht] at hc
    simp only [customNames, hc]
    exact h t₂

theorem namesInv_mintAll (ts : List String) :
    ∀ (m : StrategyMap), NamesInv m → NamesInv (mintAll m ts) := by
  induction ts with
  | nil => intro m h; simpa [mintAll] using h
  | cons t ts ih =>
      intro m h
      simp only [mintAll]
      exact ih _ (namesInv_step m t h)

/-! ### Helper lemmas: the format-string fold and loop bookkeeping -/

theorem hole_finalize_fill (h w : Hole) (s : String) :
    (h.fill w).finalize s = h.finalize (w.pre ++ s ++ w.post) := by
  simp [Hole.fill, Hole.finalize, String.append_assoc]

theorem wrapLoopsAux_eq_nestAgg :
    ∀ (ls : List Loop) (h : Hole) (inner : String),
      (wrapLoopsAux ls h).map (fun h₂ => h₂.finalize inner)
        = (nestAgg ls inner).map (fun s => h.finalize s) := by
  intro ls
  induction ls with
  | nil => intro h inner; simp [wrapLoopsAux, nestAgg, Except.map]
  | cons l ls ih =>
      intro h inner
      simp only [wrapLoopsAux, nestAgg]
      match hop : l.operator with
      | none => simp [loopWrapper, hop, Except.map]
      | some op =>
          simp only [loopWrapper, hop]
          rw [ih]
          match hres : nestAgg ls inner with
          | .error e => simp [Except.map]
          | .ok s =>
              simp only [Except.map, Except.ok.injEq]
              rw [hole_finalize_fill]
              simp [String.append_assoc]

theorem wrapLoopsFold_eq_nestAgg (ls : List Loop) (inner : String) :
    (wrapLoopsFold ls).map (fun h => "assert " ++ h.finalize inner)
      = (nestAgg ls inner).map (fun s => "assert " ++ s) := by
  have h₁ := wrapLoopsAux_eq_nestAgg ls ⟨"", ""⟩ inner
  unfold wrapLoopsFold
  match hres : nestAgg ls inner with
  | .error e =>
      rw [hres] at h₁
      match hfold : wrapLoopsAux ls ⟨"", ""⟩ with
      | .error e₂ =>
          rw [hfold] at h₁
          simp only [Except.map] at h₁ ⊢
          exact h₁
      | .ok hole =>
          rw [hfold] at h₁
          simp [Except.map] at h₁
  | .ok s =>
      rw [hres] at h₁
      match hfold : wrapLoopsAux ls ⟨"", ""⟩ with
      | .error e₂ =>
          rw [hfold] at h₁
          simp [Except.map] at h₁
      | .ok hole =>
          rw [hfold] at h₁
          simp only [Except.map, Except.ok.injEq] at h₁ ⊢
          rw [h₁]
          simp [Hole.finalize, String.empty_append, String.append_empty]

theorem fieldExpression_loops :
    ∀ (chunks : List (List HplField)) (root : String) (v : Nat)
      (ls : List Loop),
      (chunks.foldl
          (fun (acc : String × Nat × List Loop) chunk =>
            (("x" ++ decRepr acc.2.1 : String), acc.2.1 + 1,
              acc.2.2 ++ [⟨chunk, acc.1, ("x" ++ decRepr acc.2.1 : String)⟩]))
          (root, v, ls)).2.2.map Loop.fields
        = ls.map Loop.fields ++ chunks := by
  intro chunks
  induction chunks with
  | nil => intro root v ls; simp
  | cons c cs ih =>
      intro root v ls
      simp only [List.foldl]
      rw [ih]
      simp

theorem fieldExpression_loops_fields (pfx : String) (v : Nat) (ls : List Loop)
    (e : FieldExpr) :
    ((fieldExpression pfx (v, ls) e).1.2).map Loop.fields
      = ls.map Loop.fields ++ e.get_loops := by
  unfold fieldExpression
  exact fieldExpression_loops e.get_loops (pfx ++ e.varName) v ls

theorem fieldExpression_no_loops (pfx : String) (v : Nat) (ls : List Loop)
    (e : FieldExpr) (h : e.get_loops = []) :
    fieldExpression pfx (v, ls) e = ((v, ls), ⟨e, pfx ++ e.varName⟩) := by
  unfold fieldExpression
  simp [h]

theorem processCond_loops_fields (pfx : String) (c : Condition) :
    ((processCond pfx (0, []) c).1.2).map Loop.fields
      = c.field.get_loops ++ rhsLoopChunks c := by
  obtain ⟨fe, test⟩ := c
  cases test with
  | equality op v =>
      cases v with
      | lit l =>
          simp only [processCond, rhsLoopChunks]
          simpa using fieldExpression_loops_fields pfx 0 [] fe
      | expr e =>
          simp only [processCond, rhsLoopChunks]
          have h₁ := fieldExpression_loops_fields pfx 0 [] fe
          have h₂ := fieldExpression_loops_fields pfx
            (fieldExpression pfx (0, []) fe).1.1
            (fieldExpression pfx (0, []) fe).1.2 e
          simp only [Prod.mk.eta] at h₂
          rw [h₂]
          simpa using congrArg (fun l => l ++ e.get_loops) h₁
  | comparison op v =>
      cases v with
      | lit l =>
          simp only [processCond, rhsLoopChunks]
          simpa using fieldExpression_loops_fields pfx 0 [] fe
      | expr e =>
          simp only [processCond, rhsLoopChunks]
          have h₁ := fieldExpression_loops_fields pfx 0 [] fe
          have h₂ := fieldExpression_loops_fields pfx
            (fieldExpression pfx (0, []) fe).1.1
            (fieldExpression pfx (0, []) fe).1.2 e
          simp only [Prod.mk.eta] at h₂
          rw [h₂]
          simpa using congrArg (fun l => l ++ e.get_loops) h₁
  | inclusion op v =>
      cases v with
      | set vs =>
          simp only [processCond, rhsLoopChunks]
          simpa using fieldExpression_loops_fields pfx 0 [] fe
      | range lo hi exL exU =>
          simp only [processCond, rhsLoopChunks]
          simpa using fieldExpression_loops_fields pfx 0 [] fe

theorem ros_append_inj {a b : String} (h : "ros_" ++ a = "ros_" ++ b) :
    a = b := by
  have h₂ := congrArg String.data h
  simp only [String.data_append] at h₂
  exact String.ext (List.append_cancel_left h₂)

theorem mem_ros_map {t : String} {names : List String}
    (h : ("ros_" ++ t) ∈ names.map (fun x => "ros_" ++ x)) : t ∈ names := by
  obtain ⟨x, hx, he⟩ := List.mem_map.mp h
  rwa [ros_append_inj he] at hx

theorem ros_ne_header_name (t : String) : "ros_" ++ t ≠ "std_msgs_Header" := by
  intro h
  have h₂ := congrArg String.data h
  simp [String.data_append] at h₂

/-! ### Claim theorems -/

/-- C1: the claim says that for the schema `pkg/Msg {level : uint8}` and
the condition `level = 5`, `StrategyTransformer.gen` produces a custom
composite strategy for `pkg/Msg` whose `level` field carries a fixed-value
modifier `5`.  The code cannot do this: `_reset` replaces
`self.strategies` with a plain dict, so the very first statement of
`_process_left_field` (`self.strategies.make_custom(...)`) raises
`AttributeError` and no strategy is produced (the modifier-attachment
logic is commented out and references undefined names besides). -/
theorem haros_strategy_synthesizer_crashes_on_level_eq_five :
    STrans.gen STrans.mkNew levelFilter
      = .error (.attributeError "dict" "make_custom") := by
  rfl

/-- C2: the claim says the rendered bounds check of the built-in numeric
strategies raises exactly when `callerMin > callerMax` or the caller
interval misses the natural range, and that a caller min at or below the
natural minimum is fine.  The rendered guard instead uses inclusive
comparisons against the natural bounds (`min_value <= nmin or ...`), so
for `uint8` (natural bounds `0, 255`) the caller bounds `0, 255` — the
rendered function's own default arguments — already raise, while the
claimed predicate reports no error. -/
theorem haros_numeric_bounds_check_rejects_natural_bounds :
    alGet RosIntStrategy.TYPES "uint8" = some (0, 255)
    ∧ renderedBoundsCheckRaises 0 255 0 255 = true
    ∧ claimedBoundsError 0 255 0 255 = false := by
  decide

/-- C7: the claim says the random-index modifier draws from the valid
indices `0 .. n-1` of the array.  The rendered line draws from
`integers(min_value=0, max_value=len(field))`, an inclusive range that
contains the out-of-range index `n` itself (shown here for a field `data`
and length 3). -/
theorem haros_random_index_draw_includes_array_length :
    RandomIndexModifier.to_python "100" "data" "msg" "strategies" 0
      = "i = draw(strategies.integers(min_value=0, max_value=len(msg.data)))\n"
        ++ "msg.data[i] = 100"
    ∧ 3 ∈ randomIndexDrawRange 3
    ∧ 3 ∉ validIndices 3 := by
  refine ⟨by decide, by decide, by decide⟩

/-- C8 (counterexample): the claim says requesting a default strategy for
an unknown type name raises a fatal `SchemaError` rather than producing a
strategy.  For the unregistered name `bogus`, `_default` raises nothing
and returns the `Reuse` strategy `ros_bogus`, a reference matching no
registered default. -/
theorem haros_unknown_type_returns_dangling_reference :
    StrategyMap._default (.scalar "bogus") = .reuse "ros_bogus"
    ∧ alGet StrategyMap.init.defaults "bogus" = none
    ∧ "ros_bogus" ∉ StrategyMap.init.defaults.map (fun p => p.2.name) := by
  refine ⟨by decide, by decide, by decide⟩

/-- C8 (amended): requesting a default for a type name that is not a
registered built-in, not the `Header` alias and not message-like (no
slash) does not raise; `_default` returns a by-name `Reuse` reference
`ros_<name>` that matches no built-in default strategy name. -/
theorem haros_unknown_type_default_does_not_raise (t : String)
    (h₁ : hasSlash t = false) (h₂ : t ≠ "Header")
    (h₃ : t ∉ (["bool", "string", "time", "duration", "char", "uint8",
      "byte", "int8", "uint16", "int16", "uint32", "int32", "uint64",
      "int64", "float32", "float64"] : List String)) :
    StrategyMap._default (.scalar t) = .reuse ("ros_" ++ t)
    ∧ ("ros_" ++ t) ∉ StrategyMap.init.defaults.map (fun p => p.2.name) := by
  constructor
  · simp [StrategyMap._default, TypeToken.ros_type, TypeToken.is_array,
      Reuse.from_ros_type, h₁, h₂]
  · intro hmem
    have hnames : StrategyMap.init.defaults.map (fun p => p.2.name)
        = ((["bool", "string", "time", "duration"] : List String).map
            (fun x => "ros_" ++ x))
          ++ ["std_msgs_Header"]
          ++ ((["char", "uint8", "byte", "int8", "uint16", "int16",
              "uint32", "int32", "uint64", "int64", "float32", "float64"] :
              List String).map (fun x => "ros_" ++ x)) := by decide
    rw [hnames] at hmem
    simp only [List.mem_append, List.mem_singleton] at hmem
    rcases hmem with (hm | hm) | hm
    · have hsmall := mem_ros_map hm
      simp only [List.mem_cons, List.not_mem_nil, or_false] at hsmall
      rcases hsmall with rfl | rfl | rfl | rfl <;> exact h₃ (by decide)
    · exact ros_ne_header_name t hm
    · have hsmall := mem_ros_map hm
      simp only [List.mem_cons, List.not_mem_nil, or_false] at hsmall
      rcases hsmall with
        rfl | rfl | rfl | rfl | rfl | rfl | rfl | rfl | rfl | rfl | rfl | rfl <;>
        exact h₃ (by decide)

/-- C8 (witness): the amended theorem applied at the concrete unregistered
name `bogus`. -/
theorem haros_unknown_type_default_does_not_raise_witness :
    StrategyMap._default (.scalar "bogus") = .reuse ("ros_" ++ "bogus")
    ∧ ("ros_" ++ "bogus")
        ∉ StrategyMap.init.defaults.map (fun p => p.2.name) :=
  haros_unknown_type_default_does_not_raise "bogus" (by decide) (by decide)
    (by decide)

/-- C9: condition compilation is deterministic.  `gen` begins with
`_reset`, which clears `loops`, `left_operand`, `right_operands` and the
synthetic alias counter `_var`; only `_var_prefix` (set once by
`__init__`) survives, so any two transformer states with the constructed
value yield the identical assertion string for the same condition. -/
theorem haros_condition_compilation_deterministic (s t : CT) (c : Condition)
    (hs : s.varPfx = "self._user_") (ht : t.varPfx = "self._user_") :
    (CT.gen s c).2 = (CT.gen t c).2 := by
  have h : s.reset = t.reset := by
    cases s; cases t
    simp_all [CT.reset]
  unfold CT.gen
  rw [h]

/-- C9 (witness): a transformer with stale loops, operands and a nonzero
alias counter produces the same assertion as a freshly constructed one. -/
theorem haros_condition_compilation_deterministic_witness :
    (CT.gen ⟨[⟨[levelField], "junk", "x9"⟩], some ⟨⟨"m", []⟩, "r"⟩,
        [("==", .lit (.int 1))], 7, "self._user_"⟩ levelCond).2
      = (CT.gen CT.mkNew levelCond).2 :=
  haros_condition_compilation_deterministic _ _ _ rfl rfl

/-- C10: `make_defaults` raises `TypeError` exactly when its argument is
not a dict of dicts, and the validation precedes every mutation, so on
error the map (built-ins and any previously added defaults, and every
custom list) is unchanged. -/
theorem haros_make_defaults_validates_before_mutation (m : StrategyMap)
    (msg_data : MsgDataArg) :
    ((m.make_defaults msg_data).1.isSome = !(validMsgData msg_data))
    ∧ (validMsgData msg_data = false → (m.make_defaults msg_data).2 = m) := by
  constructor
  · unfold StrategyMap.make_defaults
    by_cases h : validMsgData msg_data = true
    · rw [if_pos h]
      match msg_data, h with
      | .dict l, h => simp [h]
    · rw [if_neg h]
      simp only [Option.isSome_some, Bool.not_eq_true] at h ⊢
      simp [h]
  · intro h
    unfold StrategyMap.make_defaults
    rw [if_neg (by simp [h])]

/-- C10 (witness): with a value that is a dict but holds a non-dict value,
the `TypeError` is reported and the initial map is returned unchanged. -/
theorem haros_make_defaults_validation_witness :
    (StrategyMap.init.make_defaults (.dict [("pkg/A", .notADict)])).1.isSome
        = true
    ∧ (StrategyMap.init.make_defaults (.dict [("pkg/A", .notADict)])).2
        = StrategyMap.init := by
  constructor
  · rw [(haros_make_defaults_validates_before_mutation StrategyMap.init
      (.dict [("pkg/A", .notADict)])).1]
    decide
  · exact (haros_make_defaults_validates_before_mutation StrategyMap.init
      (.dict [("pkg/A", .notADict)])).2 (by decide)

/-- C5: every `make_custom` call appends one brand-new strategy to the
requested type's custom list, leaving other lists and the defaults
untouched, and along any sequence of calls the custom names of a type are
`<type>_v1, <type>_v2, ...` in creation order, pairwise distinct and
distinct from the type's default strategy name
(`msg_type.replace("/", "_")`). -/
theorem haros_make_custom_appends_fresh_disambiguated_names
    (m : StrategyMap) (t : String) (reqs : List String) (t₂ : String) :
    customList (m.make_custom t).1 t₂
        = (if t = t₂ then customList m t ++ [(m.make_custom t).2]
           else customList m t₂)
    ∧ ((m.make_custom t).1).defaults = m.defaults
    ∧ ((m.make_custom t).2).name = vname t ((customList m t).length + 1)
    ∧ customNames (mintAll StrategyMap.init reqs) t₂
        = (List.range
            (customList (mintAll StrategyMap.init reqs) t₂).length).map
            (fun i => vname t₂ (i + 1))
    ∧ (customNames (mintAll StrategyMap.init reqs) t₂).Nodup
    ∧ slashToUnderscore t₂ ∉ customNames (mintAll StrategyMap.init reqs) t₂ := by
  have hinv := namesInv_mintAll reqs StrategyMap.init namesInv_init t₂
  refine ⟨make_custom_customList m t t₂, make_custom_defaults m t,
    make_custom_name m t, hinv, ?_, ?_⟩
  · rw [hinv]
    refine List.Nodup.map ?_ (List.nodup_range _)
    intro a b hab
    have := vname_inj t₂ hab
    omega
  · intro hmem
    rw [hinv] at hmem
    obtain ⟨i, _, he⟩ := List.mem_map.mp hmem
    exact vname_ne_default t₂ (i + 1) he

/-- C5 (witness): minting twice for `pkg/Msg` yields the custom names
`pkg_Msg_v1, pkg_Msg_v2` in order. -/
theorem haros_make_custom_fresh_names_witness :
    customNames (mintAll StrategyMap.init ["pkg/Msg", "pkg/Msg"]) "pkg/Msg"
      = ["pkg_Msg_v1", "pkg_Msg_v2"] := by
  have h := haros_make_custom_appends_fresh_disambiguated_names
    StrategyMap.init "pkg/Msg" ["pkg/Msg", "pkg/Msg"] "pkg/Msg"
  rw [h.2.2.2.1]
  decide

/-- C3: for every condition, the compiled assertion is the assert of the
base predicate wrapped by one aggregation expression per recorded loop
frame (by `nestAgg`, which wraps the head — outermost — frame outermost);
the recorded frames are exactly the loop chunks of the left path followed
by those of a right-hand path (none for a literal right-hand side); and
with zero frames the emitted text is the assert over the unwrapped base
predicate.  The concrete two-nested-existential condition produces two
nested `any(...)` wrappers, outer segment outermost. -/
theorem haros_gen_nests_one_aggregation_per_loop_frame (s : CT)
    (c : Condition) :
    (CT.gen s c).2
        = (nestAgg (processCond s.varPfx (0, []) c).1.2
            (innerText (pythonOf (.ref (processCond s.varPfx (0, []) c).2.1))
              (processCond s.varPfx (0, []) c).2.2)).map
            (fun e => "assert " ++ e)
    ∧ ((processCond s.varPfx (0, []) c).1.2).map Loop.fields
        = c.field.get_loops ++ rhsLoopChunks c
    ∧ (∀ inner : String, nestAgg [] inner = .ok inner)
    ∧ (CT.gen CT.mkNew twoLoopCond).2
        = .ok "assert any(any(x1 > 0 for x1 in x0.b) for x0 in self._user_msg.a)" := by
  refine ⟨?_, processCond_loops_fields s.varPfx c, fun _ => rfl, by rfl⟩
  show (CT.genRun s.reset c).2 = _
  unfold CT.genRun
  simp only [CT.reset]
  exact wrapLoopsFold_eq_nestAgg _ _

/-- C4: an inclusion condition over a range lowers to exactly two
comparisons joined by `and`: the left reference against the lower bound
with `>` when the range excludes its lower endpoint and `>=` otherwise,
and against the upper bound with `<` when it excludes its upper endpoint
and `<=` otherwise (stated for a loop-free left path, where the assert is
emitted over the bare conjunction). -/
theorem haros_inclusion_range_lowers_to_two_comparisons (s : CT)
    (fe : FieldExpr) (op : String) (lo hi : HplLiteral) (exL exU : Bool)
    (h : fe.get_loops = []) :
    (processCond s.varPfx (0, [])
        ⟨fe, .inclusion op (.range lo hi exL exU)⟩).2.2
        = [((if exL then ">" else ">="), .lit lo),
           ((if exU then "<" else "<="), .lit hi)]
    ∧ (CT.gen s ⟨fe, .inclusion op (.range lo hi exL exU)⟩).2
        = .ok ("assert "
            ++ (pythonOf (.ref ⟨fe, s.varPfx ++ fe.varName⟩) ++ " "
              ++ (if exL then ">" else ">=") ++ " " ++ lo.pyRepr
              ++ " and "
              ++ pythonOf (.ref ⟨fe, s.varPfx ++ fe.varName⟩) ++ " "
              ++ (if exU then "<" else "<=") ++ " " ++ hi.pyRepr)) := by
  constructor
  · simp [processCond]
  · show (CT.genRun s.reset ⟨fe, .inclusion op (.range lo hi exL exU)⟩).2 = _
    unfold CT.genRun
    simp only [CT.reset]
    unfold processCond
    rw [fieldExpression_no_loops s.varPfx 0 [] fe h]
    simp only [wrapLoopsFold, wrapLoopsAux, Except.map, innerText,
      List.map_cons, List.map_nil, joinSep, Hole.finalize, pythonOf]
    simp [String.append_assoc, String.empty_append, String.append_empty]

/-- C4 (witness): the range `(0, 10)` with `exclude_lower = true` and
`exclude_upper = false` compiles to `> 0` and `<= 10` joined by `and`. -/
theorem haros_inclusion_range_witness :
    (CT.gen CT.mkNew rangeCond).2
      = .ok "assert self._user_msg.level > 0 and self._user_msg.level <= 10" := by
  have h := haros_inclusion_range_lowers_to_two_comparisons CT.mkNew
    ⟨"msg", [levelField]⟩ "in" (.int 0) (.int 10) true false (by rfl)
  exact h.2.trans (by rfl)

/-- C6: the default-strategy resolver returns a raw-binary (`ByteArrays`)
strategy for `uint8` (byte) arrays; every other array token resolves to an
`Arrays` strategy wrapping the by-name reference to the element type's
default, rendered with size bounds `0..256` when unbounded and as a tuple
of exactly the fixed length otherwise; and every non-array token resolves
to the by-name reference produced by `Reuse.from_ros_type`, whose target
is the registered built-in strategy's name for every built-in type and the
message's default composite name for message types. -/
theorem haros_default_strategy_resolution (t : String) (len : Option Nat)
    (h : t ≠ "uint8") :
    StrategyMap._default (.array "uint8" len) = .byteArrays len
    ∧ StrategyMap._default (.array t len)
        = .arrays (.reuse (Reuse.from_ros_type t)) len
    ∧ (∀ t₂ : String, StrategyMap._default (.scalar t₂)
        = .reuse (Reuse.from_ros_type t₂))
    ∧ (∀ base : SubStrategy,
        SubStrategy.to_python "strategies" (.arrays base none)
          = "strategies.lists(elements=" ++ base.to_python "strategies"
            ++ ", min_size=0, max_size=256)")
    ∧ (∀ (base : SubStrategy) (n : Nat),
        SubStrategy.to_python "strategies" (.arrays base (some n))
          = "strategies.tuples(*[" ++ base.to_python "strategies"
            ++ " for i in xrange(" ++ decRepr n ++ ")])")
    ∧ (∀ p ∈ (["bool", "string", "time", "duration", "std_msgs/Header"]
          : List String) ++ RosIntStrategy.TYPES.map Prod.fst
          ++ RosFloatStrategy.TYPES,
        (alGet StrategyMap.init.defaults p).map TopLevelStrategy.name
          = some (Reuse.from_ros_type p))
    ∧ (∀ (mt : String) (flds : List (String × FieldStrategy)),
        hasSlash mt = true →
          Reuse.from_ros_type mt = MsgStrategy.name ⟨mt, flds, none⟩) := by
  refine ⟨?_, ?_, ?_, ?_, ?_, by decide, ?_⟩
  · simp [StrategyMap._default, TypeToken.ros_type, TypeToken.is_array,
      TypeToken.length]
  · simp [StrategyMap._default, TypeToken.ros_type, TypeToken.is_array,
      TypeToken.length, h]
  · intro t₂
    simp [StrategyMap._default, TypeToken.ros_type, TypeToken.is_array]
  · intro base
    simp only [SubStrategy.to_python]
    rw [(by decide : (("strategies" : String) ++ ".lists(elements=")
      = "strategies.lists(elements=")]
  · intro base n
    simp only [SubStrategy.to_python]
    rw [(by decide : (("strategies" : String) ++ ".tuples(*[")
      = "strategies.tuples(*[")]
  · intro mt flds hslash
    simp [Reuse.from_ros_type, MsgStrategy.name, hslash]

/-- C6 (witness): a fixed-length `int32` array resolves to an `Arrays`
strategy over the `ros_int32` reference, and the registered default for
`int32` is indeed named `ros_int32`. -/
theorem haros_default_strategy_resolution_witness :
    StrategyMap._default (.array "int32" (some 3))
      = .arrays (.reuse "ros_int32") (some 3)
    ∧ (alGet StrategyMap.init.defaults "int32").map TopLevelStrategy.name
      = some "ros_int32" := by
  have h := haros_default_strategy_resolution "int32" (some 3) (by decide)
  constructor
  · rw [h.2.1]
    decide
  · rw [h.2.2.2.2.2.1 "int32" (by decide)]
    decide
